import Mathlib

set_option linter.unusedSectionVars false

/-!
Verification development for the demo news recommender
(collaborative filtering with ALS over implicit feedback).

The embedding models, over exact rationals:
  * the sparse interaction-matrix builder of the notebook
    (`pandas.dropna`, categorical id remapping, `scipy.sparse.csr_matrix`
    construction with duplicate summing, scalar confidence scaling), and
  * the query engine over trained factor matrices
    (`similar_items` by cosine similarity over item factors,
    `recommend` by raw dot product with consumed-item exclusion).
The ALS solver itself is only called, never defined, in the notebook;
the query-engine definitions below are modelled from the specification.
-/

namespace NewsRec

/-! ### Sparse matrices (model of scipy CSR semantics) -/

/-- Stored sparse entries: (row, col, value) triples. -/
abbrev Entries := List (ℕ × ℕ × ℚ)

/-- Add one (row, col, value) triple to stored entries, summing into an
existing entry with the same key (models COO duplicate summing performed
by `scipy.sparse.csr_matrix` construction). -/
def insertTriple : Entries → ℕ → ℕ → ℚ → Entries
  | [], r, c, v => [(r, c, v)]
  | t :: ts, r, c, v =>
    if t.1 = r ∧ t.2.1 = c then (t.1, t.2.1, t.2.2 + v) :: ts
    else t :: insertTriple ts r c v

/-- Build stored entries from a list of (row, col, value) triples,
summing duplicate keys. -/
def buildEntries (ts : List (ℕ × ℕ × ℚ)) : Entries :=
  ts.foldl (fun es t => insertTriple es t.1 t.2.1 t.2.2) []

/-- Read a sparse entry list at (r, c); absent keys read 0. -/
def getEntry : Entries → ℕ → ℕ → ℚ
  | [], _, _ => 0
  | t :: ts, r, c => if t.1 = r ∧ t.2.1 = c then t.2.2 else getEntry ts r c

/-- The stored keys of an entry list (the sparsity pattern). -/
def keysOf (es : Entries) : List (ℕ × ℕ) := es.map fun t => (t.1, t.2.1)

/-- A sparse matrix: a shape together with stored entries. -/
structure SparseMat where
  rows : ℕ
  cols : ℕ
  entries : Entries
deriving DecidableEq

/-- Multiply every stored value by a scalar (model of scipy
`matrix * alpha_val`, which scales the data array and keeps the
stored index structure). -/
def scaleEntries (a : ℚ) (es : Entries) : Entries :=
  es.map fun t => (t.1, t.2.1, a * t.2.2)

/-- Scalar multiplication of a sparse matrix. -/
def scalarMul (a : ℚ) (M : SparseMat) : SparseMat :=
  ⟨M.rows, M.cols, scaleEntries a M.entries⟩

/-- The confidence scaling constant of the notebook (`alpha_val = 40`). -/
def alpha_val : ℚ := 40

/-! ### Interaction matrix builder -/

/-- Swap the (user, item) coordinates of interaction triples. -/
def swapRecs (recs : List (ℕ × ℕ × ℚ)) : List (ℕ × ℕ × ℚ) :=
  recs.map fun t => (t.2.1, t.1, t.2.2)

/-- Row count inferred from stored triples, as scipy infers shape
(largest row index plus one). -/
def inferRows (ts : List (ℕ × ℕ × ℚ)) : ℕ :=
  ts.foldr (fun t m => max (t.1 + 1) m) 0

/-- Column count inferred from stored triples. -/
def inferCols (ts : List (ℕ × ℕ × ℚ)) : ℕ :=
  ts.foldr (fun t m => max (t.2.1 + 1) m) 0

/-- The user×item interaction matrix built from (user, item, signal)
records (`sparse_user_item` in the notebook). -/
def userItemMat (recs : List (ℕ × ℕ × ℚ)) : SparseMat :=
  ⟨inferRows recs, inferCols recs, buildEntries recs⟩

/-- The item×user interaction matrix built from the same records with
coordinates swapped (`sparse_item_user` in the notebook). -/
def itemUserMat (recs : List (ℕ × ℕ × ℚ)) : SparseMat :=
  ⟨inferRows (swapRecs recs), inferCols (swapRecs recs),
    buildEntries (swapRecs recs)⟩

/-- The confidence matrix passed to training:
`data_conf = (sparse_item_user * alpha_val).astype('double')`. -/
def data_conf (recs : List (ℕ × ℕ × ℚ)) : SparseMat :=
  scalarMul alpha_val (itemUserMat recs)

/-- Sum of the signals of all records hitting one (r, c) cell. -/
def sumSignals : List (ℕ × ℕ × ℚ) → ℕ → ℕ → ℚ
  | [], _, _ => 0
  | t :: ts, r, c =>
    (if t.1 = r ∧ t.2.1 = c then t.2.2 else 0) + sumSignals ts r c

/-! ### Raw-data pipeline (load, dropna, categorical remap, build) -/

/-- A raw CSV row; `none` in a field models NaN. -/
structure RawRow where
  user : Option ℤ
  news : Option ℤ
  read : Option ℚ
deriving DecidableEq

/-- A row survives `dropna` when every field is present. -/
def rowComplete (r : RawRow) : Bool :=
  r.user.isSome && r.news.isSome && r.read.isSome

/-- Model of `raw_data.dropna()`: silently discard rows with a missing
field. -/
def dropna (rows : List RawRow) : List RawRow := rows.filter rowComplete

/-- The complete rows, as (user, news, read) value triples. -/
def cleanRecs (rows : List RawRow) : List (ℤ × ℤ × ℚ) :=
  (dropna rows).map fun r => (r.user.getD 0, r.news.getD 0, r.read.getD 0)

/-- Insert a value into a sorted duplicate-free list. -/
def insSorted (x : ℤ) : List ℤ → List ℤ
  | [] => [x]
  | y :: t =>
    if x < y then x :: y :: t else if x = y then y :: t else y :: insSorted x t

/-- The sorted distinct values of a list (the category values behind
pandas `astype("category")`). -/
def sortedUniq (l : List ℤ) : List ℤ :=
  l.foldl (fun acc x => insSorted x acc) []

/-- Dense category code of a value: its index among the sorted distinct
values (pandas `cat.codes`). -/
def catCode (l : List ℤ) (x : ℤ) : ℕ := (sortedUniq l).indexOf x

/-- Remap cleaned records to dense zero-based ids, keeping signals. -/
def remapOf (recs : List (ℤ × ℤ × ℚ)) : List (ℕ × ℕ × ℚ) :=
  recs.map fun t =>
    (catCode (recs.map fun s => s.1) t.1,
     catCode (recs.map fun s => s.2.1) t.2.1, t.2.2)

/-- The dense records the notebook passes to `csr_matrix`. -/
def remapped (rows : List RawRow) : List (ℕ × ℕ × ℚ) :=
  remapOf (cleanRecs rows)

/-- Model of `scipy.sparse.csr_matrix((data, (rowIdx, colIdx)))` on
integer coordinates: with no explicit shape, scipy first infers the shape
from the index arrays and raises a ValueError on zero-sized ones; it then
rejects a negative index with a ValueError; otherwise it builds the
matrix, summing duplicates. -/
def buildCSR (ts : List (ℤ × ℤ × ℚ)) : Except String SparseMat :=
  if ts.isEmpty then
    .error "cannot infer dimensions from zero sized index arrays"
  else if ts.all fun t => 0 ≤ t.1 && 0 ≤ t.2.1 then
    let ns : List (ℕ × ℕ × ℚ) := ts.map fun t => (t.1.toNat, t.2.1.toNat, t.2.2)
    .ok ⟨inferRows ns, inferCols ns, buildEntries ns⟩
  else .error "negative index found"

/-- Cast dense records back to integer coordinates for the CSR builder. -/
def toIntRecs (ts : List (ℕ × ℕ × ℚ)) : List (ℤ × ℤ × ℚ) :=
  ts.map fun t => ((t.1 : ℤ), (t.2.1 : ℤ), t.2.2)

/-- The notebook's data-preparation pipeline: dropna, categorical
remapping, then construction of the user×item and item×user matrices. -/
def buildPipeline (rows : List RawRow) : Except String (SparseMat × SparseMat) := do
  let ui ← buildCSR (toIntRecs (remapped rows))
  let iu ← buildCSR (toIntRecs (swapRecs (remapped rows)))
  return (ui, iu)

/-! ### Builder lemmas -/

lemma getEntry_insertTriple (es : Entries) (r c : ℕ) (v : ℚ) (r' c' : ℕ) :
    getEntry (insertTriple es r c v) r' c' =
      if r = r' ∧ c = c' then getEntry es r' c' + v else getEntry es r' c' := by
  induction es with
  | nil =>
    by_cases h : r = r' ∧ c = c'
    · rcases h with ⟨rfl, rfl⟩; simp [insertTriple, getEntry]
    · simp [insertTriple, getEntry, h]
  | cons t ts ih =>
    obtain ⟨a, b, w⟩ := t
    simp only [insertTriple]
    by_cases ht : a = r ∧ b = c
    · rcases ht with ⟨rfl, rfl⟩
      rw [if_pos ⟨rfl, rfl⟩]
      by_cases h : a = r' ∧ b = c' <;> simp [getEntry, h]
    · rw [if_neg ht]
      simp only [getEntry, ih]
      by_cases h1 : a = r' ∧ b = c'
      · rcases h1 with ⟨rfl, rfl⟩
        have h3 : ¬(r = a ∧ c = b) := fun hc => ht ⟨hc.1.symm, hc.2.symm⟩
        simp [if_neg h3]
      · simp only [if_neg h1]

lemma getEntry_foldl (ts : List (ℕ × ℕ × ℚ)) (es : Entries) (r c : ℕ) :
    getEntry (ts.foldl (fun es t => insertTriple es t.1 t.2.1 t.2.2) es) r c =
      getEntry es r c + sumSignals ts r c := by
  induction ts generalizing es with
  | nil => simp [sumSignals]
  | cons t ts ih =>
    simp only [List.foldl_cons, ih, getEntry_insertTriple, sumSignals]
    by_cases h : t.1 = r ∧ t.2.1 = c
    · simp [h, add_assoc]
    · simp [h]

lemma getEntry_buildEntries (ts : List (ℕ × ℕ × ℚ)) (r c : ℕ) :
    getEntry (buildEntries ts) r c = sumSignals ts r c := by
  have h := getEntry_foldl ts [] r c
  simpa [buildEntries, getEntry] using h

lemma sumSignals_swap (recs : List (ℕ × ℕ × ℚ)) (r c : ℕ) :
    sumSignals (swapRecs recs) r c = sumSignals recs c r := by
  induction recs with
  | nil => rfl
  | cons t ts ih =>
    have hsw : swapRecs (t :: ts) = (t.2.1, t.1, t.2.2) :: swapRecs ts := rfl
    rw [hsw]
    simp only [sumSignals] at ih ⊢
    by_cases h1 : t.2.1 = r <;> by_cases h2 : t.1 = c <;> simp [h1, h2, ih]

lemma mem_keysOf_insertTriple (es : Entries) (r c : ℕ) (v : ℚ) (k : ℕ × ℕ) :
    k ∈ keysOf (insertTriple es r c v) ↔ k ∈ keysOf es ∨ k = (r, c) := by
  induction es with
  | nil => simp [insertTriple, keysOf]
  | cons t ts ih =>
    by_cases h : t.1 = r ∧ t.2.1 = c
    · rw [insertTriple, if_pos h]
      simp only [keysOf, List.map_cons, List.mem_cons] at *
      rcases h with ⟨h1, h2⟩
      rw [h1, h2]
      tauto
    · rw [insertTriple, if_neg h]
      simp only [keysOf, List.map_cons, List.mem_cons] at *
      rw [ih]
      tauto

lemma mem_keysOf_foldl (ts : List (ℕ × ℕ × ℚ)) (es : Entries) (k : ℕ × ℕ) :
    k ∈ keysOf (ts.foldl (fun es t => insertTriple es t.1 t.2.1 t.2.2) es) ↔
      k ∈ keysOf es ∨ ∃ t ∈ ts, (t.1, t.2.1) = k := by
  induction ts generalizing es with
  | nil => simp
  | cons t ts ih =>
    simp only [List.foldl_cons, ih, mem_keysOf_insertTriple, List.mem_cons]
    constructor
    · rintro (((h | rfl) | ⟨s, hs, rfl⟩))
      · exact Or.inl h
      · exact Or.inr ⟨t, Or.inl rfl, rfl⟩
      · exact Or.inr ⟨s, Or.inr hs, rfl⟩
    · rintro (h | ⟨s, (rfl | hs), rfl⟩)
      · exact Or.inl (Or.inl h)
      · exact Or.inl (Or.inr rfl)
      · exact Or.inr ⟨s, hs, rfl⟩

lemma mem_keysOf_buildEntries (ts : List (ℕ × ℕ × ℚ)) (k : ℕ × ℕ) :
    k ∈ keysOf (buildEntries ts) ↔ ∃ t ∈ ts, (t.1, t.2.1) = k := by
  have h := mem_keysOf_foldl ts [] k
  simpa [buildEntries, keysOf] using h

lemma getEntry_scaleEntries (a : ℚ) (es : Entries) (r c : ℕ) :
    getEntry (scaleEntries a es) r c = a * getEntry es r c := by
  induction es with
  | nil => simp [scaleEntries, getEntry]
  | cons t ts ih =>
    simp only [scaleEntries, List.map_cons, getEntry] at ih ⊢
    by_cases h : t.1 = r ∧ t.2.1 = c <;> simp [h, ih]

lemma keysOf_scaleEntries (a : ℚ) (es : Entries) :
    keysOf (scaleEntries a es) = keysOf es := by
  simp [keysOf, scaleEntries, List.map_map, Function.comp]

lemma inferRows_swapRecs (recs : List (ℕ × ℕ × ℚ)) :
    inferRows (swapRecs recs) = inferCols recs := by
  induction recs with
  | nil => rfl
  | cons t ts ih => simp [swapRecs, inferRows, inferCols] at ih ⊢; rw [ih]

lemma inferCols_swapRecs (recs : List (ℕ × ℕ × ℚ)) :
    inferCols (swapRecs recs) = inferRows recs := by
  induction recs with
  | nil => rfl
  | cons t ts ih => simp [swapRecs, inferRows, inferCols] at ih ⊢; rw [ih]

lemma buildCSR_toIntRecs (ts : List (ℕ × ℕ × ℚ)) (h : ts ≠ []) :
    buildCSR (toIntRecs ts) =
      .ok ⟨inferRows ts, inferCols ts, buildEntries ts⟩ := by
  have hne : (toIntRecs ts).isEmpty = false := by
    cases ts with
    | nil => exact absurd rfl h
    | cons t ts => rfl
  have hall : ((toIntRecs ts).all fun t => 0 ≤ t.1 && 0 ≤ t.2.1) = true := by
    simp only [toIntRecs, List.all_eq_true, List.mem_map]
    rintro s ⟨t, _, rfl⟩
    simp [Int.natCast_nonneg]
  have hmap : ((toIntRecs ts).map fun t => (t.1.toNat, t.2.1.toNat, t.2.2)) = ts := by
    simp only [toIntRecs, List.map_map]
    have hfun : ((fun t : ℤ × ℤ × ℚ => (t.1.toNat, t.2.1.toNat, t.2.2)) ∘
        fun t : ℕ × ℕ × ℚ => ((t.1 : ℤ), (t.2.1 : ℤ), t.2.2)) = id := by
      funext t; simp
    rw [hfun, List.map_id]
  simp [buildCSR, hne, hall, hmap]

/-! ### Claim C4: confidence transform -/

/-- Claim C4: scaling the sparse interaction matrix by the fixed positive
constant `alpha_val` yields a matrix each of whose entries equals
`alpha_val` times the corresponding entry of `M`, with the same shape and
exactly the same stored sparsity pattern; the input matrix is untouched
(the transform is a pure function of `M`). -/
theorem confidence_scale_shape_pattern_values (M : SparseMat) :
    (scalarMul alpha_val M).rows = M.rows ∧
    (scalarMul alpha_val M).cols = M.cols ∧
    keysOf (scalarMul alpha_val M).entries = keysOf M.entries ∧
    ∀ r c, getEntry (scalarMul alpha_val M).entries r c =
      alpha_val * getEntry M.entries r c :=
  ⟨rfl, rfl, keysOf_scaleEntries alpha_val M.entries,
    fun r c => getEntry_scaleEntries alpha_val M.entries r c⟩

/-! ### Claim C6: duplicate signals are summed -/

/-- Claim C6: at every cell, the interaction-matrix builder stores the sum
of the signal values of all records hitting that (user, item) pair — so a
pair occurring several times has its signals summed, not overwritten or
rejected — in the user×item and the item×user matrix alike. -/
theorem builder_sums_duplicate_signals (recs : List (ℕ × ℕ × ℚ)) (u i : ℕ) :
    getEntry (userItemMat recs).entries u i = sumSignals recs u i ∧
    getEntry (itemUserMat recs).entries i u = sumSignals recs u i := by
  refine ⟨getEntry_buildEntries recs u i, ?_⟩
  rw [show (itemUserMat recs).entries = buildEntries (swapRecs recs) from rfl,
    getEntry_buildEntries, sumSignals_swap]

/-! ### Claim C5: the two matrix views are exact transposes -/

/-- Claim C5: the user×item and item×user matrices built from the same
record collection satisfy `user_item[u][i] = item_user[i][u]` at every
cell, store mirrored sparsity patterns, and have transposed shapes: the
two views are exact transposes and never diverge. -/
theorem user_item_transpose_invariant (recs : List (ℕ × ℕ × ℚ)) :
    (∀ u i, getEntry (userItemMat recs).entries u i =
      getEntry (itemUserMat recs).entries i u) ∧
    (∀ u i, (u, i) ∈ keysOf (userItemMat recs).entries ↔
      (i, u) ∈ keysOf (itemUserMat recs).entries) ∧
    (userItemMat recs).rows = (itemUserMat recs).cols ∧
    (userItemMat recs).cols = (itemUserMat recs).rows := by
  refine ⟨fun u i => ?_, fun u i => ?_, ?_, ?_⟩
  · rw [show (userItemMat recs).entries = buildEntries recs from rfl,
      show (itemUserMat recs).entries = buildEntries (swapRecs recs) from rfl,
      getEntry_buildEntries, getEntry_buildEntries, sumSignals_swap]
  · rw [show (userItemMat recs).entries = buildEntries recs from rfl,
      show (itemUserMat recs).entries = buildEntries (swapRecs recs) from rfl,
      mem_keysOf_buildEntries, mem_keysOf_buildEntries]
    constructor
    · rintro ⟨t, ht, hk⟩
      refine ⟨(t.2.1, t.1, t.2.2), List.mem_map_of_mem _ ht, ?_⟩
      simp only [Prod.mk.injEq] at hk ⊢
      exact ⟨hk.2, hk.1⟩
    · rintro ⟨s, hs, hk⟩
      simp only [swapRecs, List.mem_map] at hs
      obtain ⟨t, ht, rfl⟩ := hs
      refine ⟨t, ht, ?_⟩
      simp only [Prod.mk.injEq] at hk ⊢
      exact ⟨hk.2, hk.1⟩
  · rw [show (itemUserMat recs).cols = inferCols (swapRecs recs) from rfl,
      inferCols_swapRecs]; rfl
  · rw [show (itemUserMat recs).rows = inferRows (swapRecs recs) from rfl,
      inferRows_swapRecs]; rfl

/-! ### Claim C7: input validation -/

/-- Claim C7 counterexample: an input whose only record carries a negative
raw user id and a negative signal is not rejected — the pipeline builds
both matrices and stores the negative signal; a row with a NaN signal is
silently dropped by `dropna` rather than reported; and when every row has
a NaN field the pipeline does fail, but with scipy's
dimension-inference ValueError raised inside matrix construction, not
with an `InvalidRecordError` before it. -/
theorem pipeline_accepts_invalid_counterexample :
    buildPipeline [⟨some (-5), some 3, some (-1)⟩] =
      .ok (⟨1, 1, [(0, 0, -1)]⟩, ⟨1, 1, [(0, 0, -1)]⟩) ∧
    buildPipeline [⟨some 1, some 1, none⟩, ⟨some 0, some 0, some 1⟩] =
      buildPipeline [⟨some 0, some 0, some 1⟩] ∧
    buildPipeline [⟨some 1, some 1, none⟩] =
      .error "cannot infer dimensions from zero sized index arrays" := by
  refine ⟨rfl, rfl, rfl⟩

/-- Claim C7 amended: the pipeline raises no `InvalidRecordError`: rows
with a missing (NaN) field are silently dropped by `dropna` before any
matrix is built — the pipeline of an input equals the pipeline of its
complete rows — every surviving signal, negative ones included, reaches
the matrix builder unchanged, and whenever at least one complete row
remains the pipeline succeeds no matter how malformed its values; the
only failure is scipy's dimension-inference ValueError when no records
are left to build from. -/
theorem pipeline_total_dropna_passthrough (rows : List RawRow) :
    buildPipeline rows = buildPipeline (dropna rows) ∧
    (cleanRecs rows ≠ [] → (buildPipeline rows).isOk = true) ∧
    ((remapped rows).map fun t => t.2.2) =
      ((cleanRecs rows).map fun t => t.2.2) := by
  refine ⟨?_, ?_, ?_⟩
  · have hdrop : dropna (dropna rows) = dropna rows := by
      simp [dropna, List.filter_filter]
    have hclean : cleanRecs (dropna rows) = cleanRecs rows := by
      rw [cleanRecs, cleanRecs, show dropna (dropna rows) = dropna rows from hdrop]
    rw [buildPipeline, buildPipeline, remapped, remapped, hclean]
  · intro hne
    have h1 : remapped rows ≠ [] := by
      rw [remapped, remapOf]
      cases hcl : cleanRecs rows with
      | nil => exact absurd hcl hne
      | cons a l => simp
    have h2 : swapRecs (remapped rows) ≠ [] := by
      cases hr : remapped rows with
      | nil => exact absurd hr h1
      | cons a l => simp [swapRecs]
    rw [buildPipeline, buildCSR_toIntRecs _ h1, buildCSR_toIntRecs _ h2]
    rfl
  · simp [remapped, remapOf, List.map_map, Function.comp]

/-! ### Claim C10: scaling preserves the consumed-item set -/

/-- Claim C10: multiplication by a nonzero scalar — in particular the
confidence constant `alpha_val` — preserves the nonzero pattern of a
sparse matrix entry for entry, so the set of items read as consumed for a
user is the same whether taken from the raw user×item matrix or from its
confidence-scaled version; and the matrix passed to training is exactly
the alpha-scaled item×user matrix while `recommend` receives the raw one. -/
theorem consumed_set_scale_invariant (a : ℚ) (ha : a ≠ 0) (M : SparseMat)
    (recs : List (ℕ × ℕ × ℚ)) (u i : ℕ) :
    (getEntry (scalarMul a M).entries u i ≠ 0 ↔ getEntry M.entries u i ≠ 0) ∧
    (getEntry (scaleEntries alpha_val (userItemMat recs).entries) u i ≠ 0 ↔
      getEntry (userItemMat recs).entries u i ≠ 0) ∧
    data_conf recs = scalarMul alpha_val (itemUserMat recs) := by
  refine ⟨?_, ?_, rfl⟩
  · rw [show (scalarMul a M).entries = scaleEntries a M.entries from rfl,
      getEntry_scaleEntries]
    simp [mul_eq_zero, ha]
  · rw [getEntry_scaleEntries]
    have h40 : alpha_val ≠ 0 := by norm_num [alpha_val]
    simp [mul_eq_zero, h40]

/-- Witness for the scale-invariance theorem at a concrete scalar, matrix
and record list. -/
theorem consumed_set_scale_invariant_witness :
    ((2 : ℚ) ≠ 0) ∧
    ((getEntry (scalarMul 2 ⟨1, 1, [(0, 0, 3)]⟩).entries 0 0 ≠ 0 ↔
        getEntry (⟨1, 1, [(0, 0, 3)]⟩ : SparseMat).entries 0 0 ≠ 0) ∧
      (getEntry (scaleEntries alpha_val (userItemMat [(0, 0, 1)]).entries) 0 0 ≠ 0 ↔
        getEntry (userItemMat [(0, 0, 1)]).entries 0 0 ≠ 0) ∧
      data_conf [(0, 0, 1)] = scalarMul alpha_val (itemUserMat [(0, 0, 1)])) :=
  ⟨by norm_num,
    consumed_set_scale_invariant 2 (by norm_num) ⟨1, 1, [(0, 0, 3)]⟩ [(0, 0, 1)] 0 0⟩

/-! ### Factor vectors and dot products -/

/-- A latent factor vector with exact rational coordinates. -/
abbrev Vec := List ℚ

/-- Dot product of two rational vectors (componentwise, truncating at the
shorter vector). -/
def dotQ : Vec → Vec → ℚ
  | a :: as, b :: bs => a * b + dotQ as bs
  | _, _ => 0

/-- Dot product of two real vectors. -/
def dotR : List ℝ → List ℝ → ℝ
  | a :: as, b :: bs => a * b + dotR as bs
  | _, _ => 0

@[simp] lemma dotQ_cons (a b : ℚ) (as bs : Vec) :
    dotQ (a :: as) (b :: bs) = a * b + dotQ as bs := rfl

@[simp] lemma dotQ_nil_left (w : Vec) : dotQ [] w = 0 := by cases w <;> rfl

@[simp] lemma dotQ_nil_right (v : Vec) : dotQ v [] = 0 := by cases v <;> rfl

@[simp] lemma dotR_cons (a b : ℝ) (as bs : List ℝ) :
    dotR (a :: as) (b :: bs) = a * b + dotR as bs := rfl

@[simp] lemma dotR_nil_left (w : List ℝ) : dotR [] w = 0 := by cases w <;> rfl

@[simp] lemma dotR_nil_right (v : List ℝ) : dotR v [] = 0 := by cases v <;> rfl

lemma dotQ_self_nonneg (v : Vec) : 0 ≤ dotQ v v := by
  induction v with
  | nil => simp
  | cons a as ih =>
    rw [dotQ_cons]
    exact add_nonneg (mul_self_nonneg a) ih

lemma dotQ_cauchy_schwarz (v w : Vec) : dotQ v w ^ 2 ≤ dotQ v v * dotQ w w := by
  induction v generalizing w with
  | nil => simp
  | cons a as ih =>
    cases w with
    | nil => simp
    | cons b bs =>
      have hd := ih bs
      have hnv := dotQ_self_nonneg as
      have hnw := dotQ_self_nonneg bs
      simp only [dotQ_cons]
      rcases eq_or_lt_of_le hnw with h0 | hpos
      · have hsq : dotQ as bs ^ 2 = 0 :=
          le_antisymm (by nlinarith) (sq_nonneg _)
        have hd0 : dotQ as bs = 0 :=
          pow_eq_zero_iff (n := 2) (by norm_num) |>.mp hsq
        rw [hd0, ← h0]
        nlinarith [mul_nonneg hnv (mul_self_nonneg b)]
      · nlinarith [sq_nonneg (a * dotQ bs bs - b * dotQ as bs),
          mul_nonneg (sq_nonneg b) (sub_nonneg.2 hd),
          mul_nonneg (le_of_lt hpos) (sub_nonneg.2 hd)]

lemma dotR_cast (v w : Vec) :
    dotR (v.map fun a : ℚ => (a : ℝ)) (w.map fun a : ℚ => (a : ℝ)) = (dotQ v w : ℝ) := by
  induction v generalizing w with
  | nil => simp
  | cons a as ih =>
    cases w with
    | nil => simp
    | cons b bs =>
      rw [List.map_cons, List.map_cons, dotR_cons, ih, dotQ_cons]
      push_cast
      ring

lemma dotR_div (v w : List ℝ) (c c' : ℝ) :
    dotR (v.map fun a => a / c) (w.map fun a => a / c') = dotR v w / (c * c') := by
  induction v generalizing w with
  | nil => simp
  | cons a as ih =>
    cases w with
    | nil => simp
    | cons b bs =>
      rw [List.map_cons, List.map_cons, dotR_cons, ih, dotR_cons,
        div_mul_div_comm, add_div]

/-! ### Exact comparator for square-root quotients -/

lemma mul_sqrt_le_mul_sqrt_iff (a b x y : ℝ) (ha : 0 ≤ a) (hb : 0 ≤ b)
    (hy : 0 ≤ y) :
    a * Real.sqrt x ≤ b * Real.sqrt y ↔ a ^ 2 * x ≤ b ^ 2 * y := by
  have h1 : a * Real.sqrt x = Real.sqrt (a ^ 2 * x) := by
    rw [Real.sqrt_mul (sq_nonneg a), Real.sqrt_sq ha]
  have h2 : b * Real.sqrt y = Real.sqrt (b ^ 2 * y) := by
    rw [Real.sqrt_mul (sq_nonneg b), Real.sqrt_sq hb]
  rw [h1, h2]
  exact Real.sqrt_le_sqrt_iff (mul_nonneg (sq_nonneg b) hy)

/-- Exact rational test deciding `d₁ / sqrt n₁ ≤ d₂ / sqrt n₂` for
nonnegative `n₁`, `n₂` (with the Lean convention `d / 0 = 0`), by sign
analysis and cross-multiplied squares. -/
def qle (d₁ n₁ d₂ n₂ : ℚ) : Prop :=
  ((if n₁ = 0 then 0 else d₁) ≤ 0 ∧ 0 ≤ (if n₂ = 0 then 0 else d₂)) ∨
  (0 < (if n₁ = 0 then 0 else d₁) ∧ 0 < (if n₂ = 0 then 0 else d₂) ∧
    d₁ ^ 2 * n₂ ≤ d₂ ^ 2 * n₁) ∨
  ((if n₁ = 0 then 0 else d₁) < 0 ∧ (if n₂ = 0 then 0 else d₂) < 0 ∧
    d₂ ^ 2 * n₁ ≤ d₁ ^ 2 * n₂)

instance qle.instDecidable (d₁ n₁ d₂ n₂ : ℚ) : Decidable (qle d₁ n₁ d₂ n₂) := by
  unfold qle; infer_instance

lemma qle_iff (d₁ n₁ d₂ n₂ : ℚ) (h₁ : 0 ≤ n₁) (h₂ : 0 ≤ n₂) :
    qle d₁ n₁ d₂ n₂ ↔
      (d₁ : ℝ) / Real.sqrt (n₁ : ℝ) ≤ (d₂ : ℝ) / Real.sqrt (n₂ : ℝ) := by
  by_cases hn₁ : n₁ = 0 <;> by_cases hn₂ : n₂ = 0
  · subst hn₁; subst hn₂
    simp [qle]
  · have hq : qle d₁ 0 d₂ n₂ ↔ 0 ≤ d₂ := by simp [qle, hn₂]
    have hn₂r : (0 : ℝ) < (n₂ : ℝ) := by
      exact_mod_cast lt_of_le_of_ne h₂ (Ne.symm hn₂)
    have hp₂ : (0 : ℝ) < Real.sqrt (n₂ : ℝ) := Real.sqrt_pos.2 hn₂r
    subst hn₁
    rw [hq, Rat.cast_zero, Real.sqrt_zero, div_zero, le_div_iff₀ hp₂, zero_mul]
    exact (Rat.cast_nonneg (K := ℝ)).symm
  · have hq : qle d₁ n₁ d₂ 0 ↔ d₁ ≤ 0 := by simp [qle, hn₁]
    have hn₁r : (0 : ℝ) < (n₁ : ℝ) := by
      exact_mod_cast lt_of_le_of_ne h₁ (Ne.symm hn₁)
    have hp₁ : (0 : ℝ) < Real.sqrt (n₁ : ℝ) := Real.sqrt_pos.2 hn₁r
    subst hn₂
    rw [hq, Rat.cast_zero, Real.sqrt_zero, div_zero, div_le_iff₀ hp₁, zero_mul]
    exact (Rat.cast_nonpos (K := ℝ)).symm
  · have hn₁r : (0 : ℝ) < (n₁ : ℝ) := by
      exact_mod_cast lt_of_le_of_ne h₁ (Ne.symm hn₁)
    have hn₂r : (0 : ℝ) < (n₂ : ℝ) := by
      exact_mod_cast lt_of_le_of_ne h₂ (Ne.symm hn₂)
    have hp₁ : (0 : ℝ) < Real.sqrt (n₁ : ℝ) := Real.sqrt_pos.2 hn₁r
    have hp₂ : (0 : ℝ) < Real.sqrt (n₂ : ℝ) := Real.sqrt_pos.2 hn₂r
    have hq : qle d₁ n₁ d₂ n₂ ↔
        ((d₁ ≤ 0 ∧ 0 ≤ d₂) ∨ (0 < d₁ ∧ 0 < d₂ ∧ d₁ ^ 2 * n₂ ≤ d₂ ^ 2 * n₁) ∨
          (d₁ < 0 ∧ d₂ < 0 ∧ d₂ ^ 2 * n₁ ≤ d₁ ^ 2 * n₂)) := by
      simp [qle, hn₁, hn₂]
    rw [hq, div_le_div_iff₀ hp₁ hp₂]
    constructor
    · rintro (⟨hd₁, hd₂⟩ | ⟨hd₁, hd₂, hsq⟩ | ⟨hd₁, hd₂, hsq⟩)
      · have hc₁ : (d₁ : ℝ) ≤ 0 := by exact_mod_cast hd₁
        have hc₂ : (0 : ℝ) ≤ (d₂ : ℝ) := by exact_mod_cast hd₂
        nlinarith [mul_nonneg hc₂ (Real.sqrt_nonneg ((n₁ : ℚ) : ℝ)),
          mul_nonneg (neg_nonneg.2 hc₁) (Real.sqrt_nonneg ((n₂ : ℚ) : ℝ))]
      · refine (mul_sqrt_le_mul_sqrt_iff (d₁ : ℝ) (d₂ : ℝ) (n₂ : ℝ) (n₁ : ℝ)
          (by exact_mod_cast hd₁.le) (by exact_mod_cast hd₂.le) hn₁r.le).mpr ?_
        exact_mod_cast hsq
      · have h' : (-(d₂ : ℝ)) * Real.sqrt (n₁ : ℝ) ≤ (-(d₁ : ℝ)) * Real.sqrt (n₂ : ℝ) := by
          refine (mul_sqrt_le_mul_sqrt_iff (-(d₂ : ℝ)) (-(d₁ : ℝ)) (n₁ : ℝ) (n₂ : ℝ)
            (by exact_mod_cast (neg_nonneg.2 hd₂.le)) (by exact_mod_cast (neg_nonneg.2 hd₁.le))
            hn₂r.le).mpr ?_
          rw [neg_sq, neg_sq]
          exact_mod_cast hsq
        rw [neg_mul, neg_mul] at h'
        linarith
    · intro hreal
      by_cases hpos₁ : 0 < d₁
      · have hc₁ : (0 : ℝ) < (d₁ : ℝ) := by exact_mod_cast hpos₁
        have hd₂pos : 0 < d₂ := by
          by_contra hcon
          push_neg at hcon
          have hc₂ : (d₂ : ℝ) ≤ 0 := by exact_mod_cast hcon
          nlinarith [mul_pos hc₁ hp₂, mul_nonneg (neg_nonneg.2 hc₂) hp₁.le]
        refine Or.inr (Or.inl ⟨hpos₁, hd₂pos, ?_⟩)
        have := (mul_sqrt_le_mul_sqrt_iff (d₁ : ℝ) (d₂ : ℝ) (n₂ : ℝ) (n₁ : ℝ)
          (by exact_mod_cast hpos₁.le) (by exact_mod_cast hd₂pos.le) hn₁r.le).mp hreal
        exact_mod_cast this
      · push_neg at hpos₁
        by_cases hd₂ : 0 ≤ d₂
        · exact Or.inl ⟨hpos₁, hd₂⟩
        · push_neg at hd₂
          have hd₁neg : d₁ < 0 := by
            rcases lt_or_eq_of_le hpos₁ with h | h
            · exact h
            · exfalso
              have hc₂ : (d₂ : ℝ) < 0 := by exact_mod_cast hd₂
              rw [h] at hreal
              push_cast at hreal
              nlinarith [mul_pos (neg_pos.2 hc₂) hp₁]
          refine Or.inr (Or.inr ⟨hd₁neg, hd₂, ?_⟩)
          have h' : (-(d₂ : ℝ)) * Real.sqrt (n₁ : ℝ) ≤ (-(d₁ : ℝ)) * Real.sqrt (n₂ : ℝ) := by
            rw [neg_mul, neg_mul]
            exact neg_le_neg hreal
          have := (mul_sqrt_le_mul_sqrt_iff (-(d₂ : ℝ)) (-(d₁ : ℝ)) (n₁ : ℝ) (n₂ : ℝ)
            (by exact_mod_cast (neg_nonneg.2 hd₂.le)) (by exact_mod_cast (neg_nonneg.2 hd₁neg.le))
            hn₂r.le).mp h'
          rw [neg_sq, neg_sq] at this
          exact_mod_cast this

/-! ### Query engine (modelled from the spec) -/

/-- Query errors raised by the engine on out-of-range ids. -/
inductive QueryError where
  | unknownUser
  | unknownItem
deriving DecidableEq

/-- Dot product of the factor vectors of items `x` and `j`. -/
def sDot (Y : List Vec) (x j : ℕ) : ℚ := dotQ (Y.getD x []) (Y.getD j [])

/-- Squared Euclidean norm of item `j`'s factor vector. -/
def sNorm (Y : List Vec) (j : ℕ) : ℚ := dotQ (Y.getD j []) (Y.getD j [])

/-- Modelled from the spec: the cosine-similarity score
`normalize(Y[item_id]) · normalize(Y[j])` that `similar_items` assigns to
item `j` (the implicit library's query engine is absent from the
notebook; a zero-norm factor vector scores 0 by the division convention). -/
noncomputable def rCos (Y : List Vec) (x j : ℕ) : ℝ :=
  (sDot Y x j : ℝ) / (Real.sqrt (sNorm Y x : ℝ) * Real.sqrt (sNorm Y j : ℝ))

/-- Exact decidable test for `rCos Y x j₁ ≤ rCos Y x j₂`. -/
def simLe (Y : List Vec) (x j₁ j₂ : ℕ) : Prop :=
  sNorm Y x = 0 ∨ qle (sDot Y x j₁) (sNorm Y j₁) (sDot Y x j₂) (sNorm Y j₂)

instance simLe.instDecidable (Y : List Vec) (x j₁ j₂ : ℕ) :
    Decidable (simLe Y x j₁ j₂) := by unfold simLe; infer_instance

lemma rCos_eq_div_div (Y : List Vec) (x j : ℕ) :
    rCos Y x j = ((sDot Y x j : ℝ) / Real.sqrt (sNorm Y j : ℝ)) /
      Real.sqrt (sNorm Y x : ℝ) := by
  rw [rCos, div_div, mul_comm]

lemma simLe_iff (Y : List Vec) (x j₁ j₂ : ℕ) :
    simLe Y x j₁ j₂ ↔ rCos Y x j₁ ≤ rCos Y x j₂ := by
  by_cases hx : sNorm Y x = 0
  · have h0 : ∀ j, rCos Y x j = 0 := by
      intro j
      rw [rCos, hx]
      simp
    simp [simLe, hx, h0]
  · have hxpos : (0 : ℝ) < Real.sqrt (sNorm Y x : ℝ) :=
      Real.sqrt_pos.2 (by
        exact_mod_cast lt_of_le_of_ne (dotQ_self_nonneg _) (Ne.symm hx))
    rw [simLe, or_iff_right hx,
      qle_iff (sDot Y x j₁) (sNorm Y j₁) (sDot Y x j₂) (sNorm Y j₂)
        (dotQ_self_nonneg _) (dotQ_self_nonneg _),
      rCos_eq_div_div, rCos_eq_div_div, div_le_div_iff_of_pos_right hxpos]

/-- Ranking order of the query engines: strictly higher score first, ties
broken by ascending item id. -/
def rankOf {α : Type} [LinearOrder α] (f : ℕ → α) (i₁ i₂ : ℕ) : Prop :=
  f i₂ < f i₁ ∨ (f i₁ = f i₂ ∧ i₁ ≤ i₂)

instance rankOf.instIsTotal {α : Type} [LinearOrder α] (f : ℕ → α) :
    IsTotal ℕ (rankOf f) :=
  ⟨fun a b => by
    rcases lt_trichotomy (f a) (f b) with h | h | h
    · exact Or.inr (Or.inl h)
    · rcases le_total a b with hab | hab
      · exact Or.inl (Or.inr ⟨h, hab⟩)
      · exact Or.inr (Or.inr ⟨h.symm, hab⟩)
    · exact Or.inl (Or.inl h)⟩

instance rankOf.instIsTrans {α : Type} [LinearOrder α] (f : ℕ → α) :
    IsTrans ℕ (rankOf f) :=
  ⟨fun a b c hab hbc => by
    rcases hab with h1 | ⟨h1, h1'⟩ <;> rcases hbc with h2 | ⟨h2, h2'⟩
    · exact Or.inl (h2.trans h1)
    · exact Or.inl (h2 ▸ h1)
    · exact Or.inl (h1.symm ▸ h2)
    · exact Or.inr ⟨h1.trans h2, h1'.trans h2'⟩⟩

instance rankOf.instDecidableRat (f : ℕ → ℚ) : DecidableRel (rankOf f) :=
  fun a b => by unfold rankOf; infer_instance

instance rankOf.instDecidableCos (Y : List Vec) (x : ℕ) :
    DecidableRel (rankOf (rCos Y x)) := fun a b =>
  decidable_of_iff ((¬ simLe Y x a b) ∨ (simLe Y x b a ∧ a ≤ b)) (by
    rw [simLe_iff, simLe_iff]
    constructor
    · rintro (h | ⟨h, hab⟩)
      · exact Or.inl (not_le.mp h)
      · rcases eq_or_lt_of_le h with heq | hlt
        · exact Or.inr ⟨heq.symm, hab⟩
        · exact Or.inl hlt
    · rintro (h | ⟨h, hab⟩)
      · exact Or.inl (not_le.mpr h)
      · exact Or.inr ⟨le_of_eq h.symm, hab⟩)

/-- Item ids ranked by descending cosine score, ties ascending. -/
def simRankedIds (Y : List Vec) (x : ℕ) : List ℕ :=
  List.insertionSort (rankOf (rCos Y x)) (List.range Y.length)

/-- Modelled from the spec: `similar_items(item_id, k)` scores every item
by cosine similarity over item factor vectors and returns the `k`
highest-scoring (item, score) pairs in descending score order, ties by
ascending id; an out-of-range item id is an `UnknownItemError`. -/
noncomputable def similarItems (Y : List Vec) (x k : ℕ) :
    Except QueryError (List (ℕ × ℝ)) :=
  if x < Y.length then
    .ok (((simRankedIds Y x).take k).map fun j => (j, rCos Y x j))
  else .error .unknownItem

/-- Modelled from the spec: the score `recommend` gives item `i` for user
`u` is the raw dot product of their factor vectors (no normalization). -/
def recScore (X Y : List Vec) (u i : ℕ) : ℚ := dotQ (X.getD u []) (Y.getD i [])

/-- Modelled from the spec: the candidate items of `recommend` are the
items whose entry in user `u`'s row of the interaction matrix is zero
(already-consumed items are excluded). -/
def recCandidates (Y : List Vec) (M : SparseMat) (u : ℕ) : List ℕ :=
  (List.range Y.length).filter fun i => getEntry M.entries u i = 0

/-- Unconsumed item ids ranked by descending predicted score. -/
def recRankedIds (X Y : List Vec) (M : SparseMat) (u : ℕ) : List ℕ :=
  List.insertionSort (rankOf (recScore X Y u)) (recCandidates Y M u)

/-- Modelled from the spec: `recommend(user_id, k)` scores every
not-yet-consumed item by the raw dot product `X[user_id] · Y[i]` and
returns the `k` highest-scoring (item, score) pairs in descending order;
an out-of-range user id is an `UnknownUserError`. -/
def recommend (X Y : List Vec) (M : SparseMat) (u k : ℕ) :
    Except QueryError (List (ℕ × ℚ)) :=
  if u < X.length then
    .ok (((recRankedIds X Y M u).take k).map fun i => (i, recScore X Y u i))
  else .error .unknownUser

/-- Normalization of a factor vector to unit Euclidean length. -/
noncomputable def normVec (v : Vec) : List ℝ :=
  v.map fun a : ℚ => (a : ℝ) / Real.sqrt (dotQ v v : ℝ)

lemma normVec_eq_map_div (v : Vec) :
    normVec v = (v.map fun a : ℚ => (a : ℝ)).map
      fun a => a / Real.sqrt (dotQ v v : ℝ) := by
  rw [normVec, List.map_map]
  rfl

lemma rCos_eq_normalized (Y : List Vec) (x j : ℕ) :
    rCos Y x j = dotR (normVec (Y.getD x [])) (normVec (Y.getD j [])) := by
  rw [normVec_eq_map_div, normVec_eq_map_div, dotR_div, dotR_cast]
  rfl

lemma rCos_self (Y : List Vec) (x : ℕ) (h : sNorm Y x ≠ 0) :
    rCos Y x x = 1 := by
  have hn : (0 : ℝ) < (sNorm Y x : ℝ) := by
    exact_mod_cast lt_of_le_of_ne (dotQ_self_nonneg _) (Ne.symm h)
  have hdot : sDot Y x x = sNorm Y x := rfl
  rw [rCos, hdot, Real.mul_self_sqrt hn.le]
  exact div_self (ne_of_gt hn)

lemma rCos_le_one (Y : List Vec) (x j : ℕ) : rCos Y x j ≤ 1 := by
  have hcs : ((sDot Y x j : ℚ) : ℝ) ^ 2 ≤ (sNorm Y x : ℝ) * (sNorm Y j : ℝ) := by
    exact_mod_cast dotQ_cauchy_schwarz (Y.getD x []) (Y.getD j [])
  have hD : 0 ≤ Real.sqrt (sNorm Y x : ℝ) * Real.sqrt (sNorm Y j : ℝ) :=
    mul_nonneg (Real.sqrt_nonneg _) (Real.sqrt_nonneg _)
  rcases eq_or_lt_of_le hD with h0 | hpos
  · rw [rCos, ← h0, div_zero]
    norm_num
  · rw [rCos, div_le_one hpos]
    calc ((sDot Y x j : ℚ) : ℝ) ≤ |((sDot Y x j : ℚ) : ℝ)| := le_abs_self _
    _ = Real.sqrt (((sDot Y x j : ℚ) : ℝ) ^ 2) := (Real.sqrt_sq_eq_abs _).symm
    _ ≤ Real.sqrt ((sNorm Y x : ℝ) * (sNorm Y j : ℝ)) := Real.sqrt_le_sqrt hcs
    _ = Real.sqrt (sNorm Y x : ℝ) * Real.sqrt (sNorm Y j : ℝ) :=
      Real.sqrt_mul (by exact_mod_cast dotQ_self_nonneg (Y.getD x [])) _

/-! ### Generic top-K selection lemmas -/

section TopK

variable {r : ℕ → ℕ → Prop} [DecidableRel r] [IsTotal ℕ r] [IsTrans ℕ r]

lemma topk_length (l : List ℕ) (k : ℕ) :
    ((List.insertionSort r l).take k).length = min k l.length := by
  rw [List.length_take, List.length_insertionSort]

lemma topk_sorted (l : List ℕ) (k : ℕ) :
    List.Pairwise r ((List.insertionSort r l).take k) :=
  List.Pairwise.sublist (List.take_sublist k _) (List.sorted_insertionSort r l)

lemma topk_mem {l : List ℕ} {k a : ℕ}
    (h : a ∈ (List.insertionSort r l).take k) : a ∈ l :=
  (List.perm_insertionSort r l).mem_iff.mp (List.take_subset k _ h)

lemma topk_all {l : List ℕ} {k : ℕ} (h : l.length ≤ k) :
    (List.insertionSort r l).take k = List.insertionSort r l :=
  List.take_of_length_le (by rw [List.length_insertionSort]; exact h)

lemma topk_dominates {l : List ℕ} {k a b : ℕ}
    (ha : a ∈ (List.insertionSort r l).take k) (hb : b ∈ l)
    (hnb : b ∉ (List.insertionSort r l).take k) : r a b := by
  have hbs : b ∈ List.insertionSort r l :=
    (List.perm_insertionSort r l).mem_iff.mpr hb
  have hsplit : List.insertionSort r l =
      (List.insertionSort r l).take k ++ (List.insertionSort r l).drop k :=
    (List.take_append_drop k _).symm
  have hp : List.Pairwise r
      ((List.insertionSort r l).take k ++ (List.insertionSort r l).drop k) := by
    rw [← hsplit]
    exact List.sorted_insertionSort r l
  have hbd : b ∈ (List.insertionSort r l).drop k := by
    rcases List.mem_append.mp (hsplit ▸ hbs) with h | h
    · exact absurd h hnb
    · exact h
  exact (List.pairwise_append.mp hp).2.2 a ha b hbd

lemma head_insertionSort_min (l : List ℕ) (x : ℕ) (hx : x ∈ l)
    (hmin : ∀ y ∈ l, y ≠ x → ¬ r y x) :
    (List.insertionSort r l).head? = some x := by
  have hxs : x ∈ List.insertionSort r l :=
    (List.perm_insertionSort r l).mem_iff.mpr hx
  rcases hs : List.insertionSort r l with _ | ⟨h, t⟩
  · rw [hs] at hxs
    simp at hxs
  · rw [hs] at hxs
    by_cases hhx : h = x
    · rw [hhx]
      rfl
    · exfalso
      have hxt : x ∈ t := by
        rcases List.mem_cons.mp hxs with h' | h'
        · exact absurd h'.symm hhx
        · exact h'
      have hsort : List.Sorted r (h :: t) := hs ▸ List.sorted_insertionSort r l
      have hrel : r h x := List.rel_of_sorted_cons hsort x hxt
      have hhl : h ∈ l := (List.perm_insertionSort r l).mem_iff.mp
        (by rw [hs]; exact List.mem_cons_self h t)
      exact hmin h hhl hhx hrel

end TopK

lemma head_take_of_pos {α : Type} (l : List α) {k : ℕ} (hk : 0 < k) :
    (l.take k).head? = l.head? := by
  cases l with
  | nil => simp
  | cons a t =>
    cases k with
    | zero => exact absurd hk (lt_irrefl 0)
    | succ k => simp

/-! ### Claim C1: consumed items are never re-recommended -/

/-- Claim C1: whatever the trained factor matrices, the interaction
matrix, the user and k, every (item, score) pair that `recommend`
returns has a zero entry in that user's row of the interaction matrix —
consumed items never reappear in recommendations. -/
theorem recommend_excludes_consumed (X Y : List Vec) (M : SparseMat)
    (u k : ℕ) (l : List (ℕ × ℚ)) (hok : recommend X Y M u k = .ok l) :
    ∀ p ∈ l, getEntry M.entries u p.1 = 0 := by
  intro p hp
  rw [recommend] at hok
  by_cases hu : u < X.length
  · rw [if_pos hu] at hok
    injection hok with hok
    rw [← hok] at hp
    rcases List.mem_map.mp hp with ⟨i, hi, rfl⟩
    have hcand : i ∈ recCandidates Y M u := topk_mem hi
    have := (List.mem_filter.mp hcand).2
    exact of_decide_eq_true this
  · rw [if_neg hu] at hok
    exact absurd hok (by simp)

/-- Witness for the consumed-item exclusion at a concrete model: user 0
has consumed item 0, and the sole recommendation is item 1. -/
theorem recommend_excludes_consumed_witness :
    recommend [[(1 : ℚ)]] [[(1 : ℚ)], [(2 : ℚ)]] ⟨1, 2, [(0, 0, 5)]⟩ 0 5 =
      .ok [(1, recScore [[(1 : ℚ)]] [[(1 : ℚ)], [(2 : ℚ)]] 0 1)] ∧
    ∀ p ∈ [((1 : ℕ), recScore [[(1 : ℚ)]] [[(1 : ℚ)], [(2 : ℚ)]] 0 1)],
      getEntry (SparseMat.mk 1 2 [(0, 0, 5)]).entries 0 p.1 = 0 :=
  ⟨rfl,
    recommend_excludes_consumed [[(1 : ℚ)]] [[(1 : ℚ)], [(2 : ℚ)]]
      ⟨1, 2, [(0, 0, 5)]⟩ 0 5 [(1, recScore [[(1 : ℚ)]] [[(1 : ℚ)], [(2 : ℚ)]] 0 1)] rfl⟩

/-! ### Claim C2: self-similarity tops the similar-items list -/

/-- Claim C2 counterexample: with two items carrying identical factor
vectors, querying `similar_items` for item 1 (in range, nonzero norm)
returns item 0 first — the spec's own ascending-id tie-break demotes the
query item behind an equally-similar smaller id, so the first element is
not the query item. -/
theorem similar_self_not_top_counterexample :
    1 < ([[(1 : ℚ)], [(1 : ℚ)]] : List Vec).length ∧
    sNorm [[(1 : ℚ)], [(1 : ℚ)]] 1 ≠ 0 ∧
    similarItems [[(1 : ℚ)], [(1 : ℚ)]] 1 2 =
      .ok [(0, rCos [[(1 : ℚ)], [(1 : ℚ)]] 1 0),
           (1, rCos [[(1 : ℚ)], [(1 : ℚ)]] 1 1)] ∧
    rCos [[(1 : ℚ)], [(1 : ℚ)]] 1 0 = 1 := by
  have hdot : dotQ [(1 : ℚ)] [(1 : ℚ)] = 1 := by simp
  have hd0 : sDot [[(1 : ℚ)], [(1 : ℚ)]] 1 0 = 1 := by
    rw [show sDot [[(1 : ℚ)], [(1 : ℚ)]] 1 0 = dotQ [(1 : ℚ)] [(1 : ℚ)] from rfl, hdot]
  have hd1 : sDot [[(1 : ℚ)], [(1 : ℚ)]] 1 1 = 1 := by
    rw [show sDot [[(1 : ℚ)], [(1 : ℚ)]] 1 1 = dotQ [(1 : ℚ)] [(1 : ℚ)] from rfl, hdot]
  have hn0 : sNorm [[(1 : ℚ)], [(1 : ℚ)]] 0 = 1 := by
    rw [show sNorm [[(1 : ℚ)], [(1 : ℚ)]] 0 = dotQ [(1 : ℚ)] [(1 : ℚ)] from rfl, hdot]
  have hn1 : sNorm [[(1 : ℚ)], [(1 : ℚ)]] 1 = 1 := by
    rw [show sNorm [[(1 : ℚ)], [(1 : ℚ)]] 1 = dotQ [(1 : ℚ)] [(1 : ℚ)] from rfl, hdot]
  have hc0 : rCos [[(1 : ℚ)], [(1 : ℚ)]] 1 0 = 1 := by
    rw [rCos, hd0, hn0, hn1]
    norm_num
  have hc1 : rCos [[(1 : ℚ)], [(1 : ℚ)]] 1 1 = 1 := by
    rw [rCos, hd1, hn1]
    norm_num
  have h01 : rankOf (rCos [[(1 : ℚ)], [(1 : ℚ)]] 1) 0 1 :=
    Or.inr ⟨by rw [hc0, hc1], by norm_num⟩
  have hsort : simRankedIds [[(1 : ℚ)], [(1 : ℚ)]] 1 = [0, 1] := by
    rw [simRankedIds, show List.range ([[(1 : ℚ)], [(1 : ℚ)]] : List Vec).length =
      [0, 1] from rfl]
    simp only [List.insertionSort, List.orderedInsert]
    rw [if_pos h01]
  refine ⟨by norm_num, by rw [hn1]; norm_num, ?_, hc0⟩
  rw [similarItems, if_pos (by norm_num), hsort]
  rfl

/-- Claim C2 amended: for a trained model, an in-range item x with a
nonzero factor vector and k ≥ 1, the first element of
`similar_items(x, k)` is x itself with score exactly 1, provided no item
with a smaller id is perfectly colinear with x (cosine similarity exactly
1) — such an item would win the ascending-id tie-break instead. -/
theorem similar_items_self_top (Y : List Vec) (x k : ℕ)
    (hx : x < Y.length) (hk : 0 < k) (hnx : sNorm Y x ≠ 0)
    (hcol : ∀ j, j < x → ¬ simLe Y x x j) :
    ∃ l, similarItems Y x k = .ok l ∧ l.head? = some (x, 1) := by
  have hok : similarItems Y x k =
      .ok (((simRankedIds Y x).take k).map fun j => (j, rCos Y x j)) := by
    rw [similarItems, if_pos hx]
  refine ⟨_, hok, ?_⟩
  rw [List.head?_map, head_take_of_pos _ hk, simRankedIds,
    head_insertionSort_min (List.range Y.length) x (List.mem_range.mpr hx) ?_]
  · simp [rCos_self Y x hnx]
  · intro y hy hyx hr
    have hself : rCos Y x x = 1 := rCos_self Y x hnx
    have hle1 : rCos Y x y ≤ 1 := rCos_le_one Y x y
    rcases Nat.lt_or_ge y x with hylt | hyge
    · have h := hcol y hylt
      rw [simLe_iff] at h
      push_neg at h
      rcases hr with h2 | ⟨h2, _⟩
      · rw [hself] at h2
        rw [hself] at h
        linarith
      · rw [h2] at h
        exact lt_irrefl _ h
    · have hgt : x < y := lt_of_le_of_ne hyge (Ne.symm hyx)
      rcases hr with h2 | ⟨h2, hyx'⟩
      · rw [hself] at h2
        linarith
      · omega

lemma witnessY_norm1 : sNorm [[(0 : ℚ)], [(1 : ℚ)]] 1 = 1 := by
  rw [show sNorm [[(0 : ℚ)], [(1 : ℚ)]] 1 = dotQ [(1 : ℚ)] [(1 : ℚ)] from rfl]
  simp

lemma witnessY_no_colinear :
    ∀ j, j < 1 → ¬ simLe [[(0 : ℚ)], [(1 : ℚ)]] 1 1 j := by
  intro j hj
  have hj0 : j = 0 := Nat.lt_one_iff.mp hj
  subst hj0
  have e11 : sDot [[(0 : ℚ)], [(1 : ℚ)]] 1 1 = 1 := by
    rw [show sDot [[(0 : ℚ)], [(1 : ℚ)]] 1 1 = dotQ [(1 : ℚ)] [(1 : ℚ)] from rfl]
    simp
  have e10 : sDot [[(0 : ℚ)], [(1 : ℚ)]] 1 0 = 0 := by
    rw [show sDot [[(0 : ℚ)], [(1 : ℚ)]] 1 0 = dotQ [(1 : ℚ)] [(0 : ℚ)] from rfl]
    simp
  have n0 : sNorm [[(0 : ℚ)], [(1 : ℚ)]] 0 = 0 := by
    rw [show sNorm [[(0 : ℚ)], [(1 : ℚ)]] 0 = dotQ [(0 : ℚ)] [(0 : ℚ)] from rfl]
    simp
  unfold simLe qle
  rw [e11, e10, n0, witnessY_norm1]
  norm_num

/-- Witness for the amended self-top theorem: two one-dimensional factor
vectors 0 and 1, query item 1. -/
theorem similar_items_self_top_witness :
    (1 < ([[(0 : ℚ)], [(1 : ℚ)]] : List Vec).length ∧ 0 < 2 ∧
      sNorm [[(0 : ℚ)], [(1 : ℚ)]] 1 ≠ 0 ∧
      (∀ j, j < 1 → ¬ simLe [[(0 : ℚ)], [(1 : ℚ)]] 1 1 j)) ∧
    ∃ l, similarItems [[(0 : ℚ)], [(1 : ℚ)]] 1 2 = .ok l ∧
      l.head? = some (1, 1) :=
  ⟨⟨by norm_num, by norm_num, by rw [witnessY_norm1]; norm_num,
      witnessY_no_colinear⟩,
    similar_items_self_top [[(0 : ℚ)], [(1 : ℚ)]] 1 2
      (by norm_num) (by norm_num) (by rw [witnessY_norm1]; norm_num)
      witnessY_no_colinear⟩

/-! ### Claim C3: cosine scores and top-k ordering of similar items -/

/-- Claim C3: for a trained model and in-range item x, every returned
(item, score) pair of `similar_items` carries exactly the cosine score
`normalize(Y[x]) · normalize(Y[j])` of the two factor vectors (not a raw
dot product), and the returned items are the k highest-ranked ones, in
descending score order with ties broken by ascending item id (every
non-returned candidate ranks no better than every returned one). -/
theorem similar_items_cosine_topk (Y : List Vec) (x k : ℕ)
    (hx : x < Y.length) :
    ∃ l, similarItems Y x k = .ok l ∧
      (∀ p ∈ l, p.2 = dotR (normVec (Y.getD x [])) (normVec (Y.getD p.1 []))) ∧
      l.Pairwise (fun p q => q.2 < p.2 ∨ (p.2 = q.2 ∧ p.1 ≤ q.1)) ∧
      (∀ p ∈ l, ∀ j, j < Y.length → j ∉ l.map Prod.fst →
        (rCos Y x j < rCos Y x p.1 ∨ (rCos Y x p.1 = rCos Y x j ∧ p.1 ≤ j))) ∧
      l.length = min k Y.length := by
  have hok : similarItems Y x k =
      .ok (((simRankedIds Y x).take k).map fun j => (j, rCos Y x j)) := by
    rw [similarItems, if_pos hx]
  refine ⟨_, hok, ?_, ?_, ?_, ?_⟩
  · rintro p hp
    rcases List.mem_map.mp hp with ⟨j, _, rfl⟩
    exact rCos_eq_normalized Y x j
  · rw [List.pairwise_map]
    unfold simRankedIds
    exact @topk_sorted (rankOf (rCos Y x)) (rankOf.instDecidableCos Y x) _ _
      (List.range Y.length) k
  · rintro p hp j hjlt hjnot
    rcases List.mem_map.mp hp with ⟨i, hi, rfl⟩
    have hfst :
        ((((simRankedIds Y x).take k).map fun j => (j, rCos Y x j)).map Prod.fst)
        = (simRankedIds Y x).take k := by
      rw [List.map_map]
      exact List.map_id _
    rw [hfst] at hjnot
    unfold simRankedIds at hi hjnot
    exact @topk_dominates (rankOf (rCos Y x)) (rankOf.instDecidableCos Y x) _ _
      _ _ _ _ hi (List.mem_range.mpr hjlt) hjnot
  · rw [List.length_map]
    unfold simRankedIds
    rw [@topk_length (rankOf (rCos Y x)) (rankOf.instDecidableCos Y x) _ _
      (List.range Y.length) k, List.length_range]

/-- Witness for the cosine top-k theorem at a one-item model. -/
theorem similar_items_cosine_topk_witness :
    0 < ([[(1 : ℚ)]] : List Vec).length ∧
    (∃ l, similarItems [[(1 : ℚ)]] 0 1 = .ok l ∧
      (∀ p ∈ l, p.2 = dotR (normVec (([[(1 : ℚ)]] : List Vec).getD 0 []))
        (normVec (([[(1 : ℚ)]] : List Vec).getD p.1 []))) ∧
      l.Pairwise (fun p q => q.2 < p.2 ∨ (p.2 = q.2 ∧ p.1 ≤ q.1)) ∧
      (∀ p ∈ l, ∀ j, j < ([[(1 : ℚ)]] : List Vec).length → j ∉ l.map Prod.fst →
        (rCos [[(1 : ℚ)]] 0 j < rCos [[(1 : ℚ)]] 0 p.1 ∨
          (rCos [[(1 : ℚ)]] 0 p.1 = rCos [[(1 : ℚ)]] 0 j ∧ p.1 ≤ j))) ∧
      l.length = min 1 ([[(1 : ℚ)]] : List Vec).length) :=
  ⟨by norm_num, similar_items_cosine_topk [[(1 : ℚ)]] 0 1 (by norm_num)⟩

/-! ### Claim C9: result shape of both queries -/

lemma topk_pairs_spec {α : Type} [LinearOrder α] (f : ℕ → α)
    [DecidableRel (rankOf f)] (l : List ℕ) (k : ℕ) :
    (((List.insertionSort (rankOf f) l).take k).map fun i => (i, f i)).length
      = min k l.length ∧
    (((List.insertionSort (rankOf f) l).take k).map fun i => (i, f i)).Pairwise
      (fun p q => q.2 ≤ p.2) ∧
    (l.length ≤ k →
      List.Perm ((((List.insertionSort (rankOf f) l).take k).map fun i => (i, f i)).map
        Prod.fst) l) := by
  refine ⟨?_, ?_, ?_⟩
  · rw [List.length_map, topk_length]
  · rw [List.pairwise_map]
    refine (topk_sorted l k).imp ?_
    rintro a b (h | ⟨h, _⟩)
    · exact le_of_lt h
    · exact le_of_eq h.symm
  · intro h
    rw [List.map_map, show ((Prod.fst ∘ fun i => (i, f i)) : ℕ → ℕ) = id from
      funext fun i => rfl, List.map_id, topk_all h]
    exact List.perm_insertionSort _ l

/-- Claim C9: each query returns an ordered (item, score) sequence in
descending score order whose length is `min k` (number of candidates), so
at most k; when k is at least the candidate count the result is exactly
all candidates (none missing, none repeated, no padding), and no error is
raised for any k. -/
theorem query_results_bounded_sorted (Y X : List Vec) (M : SparseMat)
    (x u k : ℕ) (hx : x < Y.length) (hu : u < X.length) :
    (∃ l, similarItems Y x k = .ok l ∧
      l.length = min k Y.length ∧ l.length ≤ k ∧
      l.Pairwise (fun p q => q.2 ≤ p.2) ∧
      (Y.length ≤ k → List.Perm (l.map Prod.fst) (List.range Y.length))) ∧
    (∃ l, recommend X Y M u k = .ok l ∧
      l.length = min k (recCandidates Y M u).length ∧ l.length ≤ k ∧
      l.Pairwise (fun p q => q.2 ≤ p.2) ∧
      ((recCandidates Y M u).length ≤ k →
        List.Perm (l.map Prod.fst) (recCandidates Y M u))) := by
  constructor
  · refine ⟨((simRankedIds Y x).take k).map fun j => (j, rCos Y x j),
      by rw [similarItems, if_pos hx], ?_⟩
    unfold simRankedIds
    obtain ⟨h1, h2, h3⟩ := @topk_pairs_spec ℝ _ (rCos Y x)
      (rankOf.instDecidableCos Y x) (List.range Y.length) k
    refine ⟨?_, ?_, h2, ?_⟩
    · rw [h1, List.length_range]
    · rw [h1, List.length_range]
      exact min_le_left _ _
    · intro hk
      exact h3 (by rw [List.length_range]; exact hk)
  · refine ⟨((recRankedIds X Y M u).take k).map fun i => (i, recScore X Y u i),
      by rw [recommend, if_pos hu], ?_⟩
    unfold recRankedIds
    obtain ⟨h1, h2, h3⟩ := @topk_pairs_spec ℚ _ (recScore X Y u)
      (rankOf.instDecidableRat (recScore X Y u)) (recCandidates Y M u) k
    refine ⟨h1, ?_, h2, h3⟩
    rw [h1]
    exact min_le_left _ _

/-- Witness for the query result-shape theorem at a one-user, one-item
model with an empty interaction matrix. -/
theorem query_results_bounded_sorted_witness :
    (0 < ([[(1 : ℚ)]] : List Vec).length ∧ 0 < ([[(1 : ℚ)]] : List Vec).length) ∧
    ((∃ l, similarItems [[(1 : ℚ)]] 0 2 = .ok l ∧
      l.length = min 2 ([[(1 : ℚ)]] : List Vec).length ∧ l.length ≤ 2 ∧
      l.Pairwise (fun p q => q.2 ≤ p.2) ∧
      (([[(1 : ℚ)]] : List Vec).length ≤ 2 →
        List.Perm (l.map Prod.fst) (List.range ([[(1 : ℚ)]] : List Vec).length))) ∧
    (∃ l, recommend [[(1 : ℚ)]] [[(1 : ℚ)]] ⟨1, 1, []⟩ 0 2 = .ok l ∧
      l.length = min 2 (recCandidates [[(1 : ℚ)]] ⟨1, 1, []⟩ 0).length ∧
      l.length ≤ 2 ∧
      l.Pairwise (fun p q => q.2 ≤ p.2) ∧
      ((recCandidates [[(1 : ℚ)]] ⟨1, 1, []⟩ 0).length ≤ 2 →
        List.Perm (l.map Prod.fst) (recCandidates [[(1 : ℚ)]] ⟨1, 1, []⟩ 0)))) :=
  ⟨⟨by norm_num, by norm_num⟩,
    query_results_bounded_sorted [[(1 : ℚ)]] [[(1 : ℚ)]] ⟨1, 1, []⟩ 0 0 2
      (by norm_num) (by norm_num)⟩

end NewsRec
